import Mathlib

/-!
Verification of the `javac_compiler_properties_parser` module: a shallow
embedding of its data model (Placeholder, Message), its line-oriented
recursive-descent parser (logical lines, item/comment/message dispatch,
continuation-value assembly, component splitting) and the best-effort
annotation-comment interpreter, together with theorems settling the
specification claims about them.

Python strings are modelled as Lean `String` (lists of characters), Python
`int` as `Int`, exceptions as explicit error values, and the two unbounded
loops (`Parser.parse`'s `while self.parsing` and `Parser.value`'s
`while has_continuation`) are given an explicit fuel parameter so that
non-termination of the original code is observable as the result `diverge`
holding for every fuel value.
-/

set_option autoImplicit false

namespace JavacProps

/-! ### Python string primitives -/

/-- Characters stripped by Python's default `str.strip` / `str.rstrip` /
`str.lstrip` (ASCII fragment: space, tab, newline, carriage return,
vertical tab, form feed). -/
def pyIsSpace (c : Char) : Bool :=
  c = ' ' || c = '\t' || c = '\n' || c = '\r' || c = '\x0b' || c = '\x0c'

/-- Python `str.lstrip()`. -/
def pyLstrip (s : String) : String :=
  String.mk (s.data.dropWhile pyIsSpace)

/-- Python `str.rstrip()`. -/
def pyRstrip (s : String) : String :=
  String.mk ((s.data.reverse.dropWhile pyIsSpace).reverse)

/-- Python `str.strip()`. -/
def pyStrip (s : String) : String :=
  pyLstrip (pyRstrip s)

/-- Whether the string's final character is a backslash, i.e. Python
`s.endswith("\\")`. -/
def endsWithBackslash (s : String) : Bool :=
  match s.data.getLast? with
  | some c => c = '\\'
  | none => false

/-- Python `s.removesuffix("\\")`: drop one trailing backslash if present. -/
def dropSuffixBackslash (s : String) : String :=
  if endsWithBackslash s then String.mk s.data.dropLast else s

/-- Split a character list at the first occurrence of `c`, as Python
`str.partition` does; `none` when `c` does not occur. -/
def splitAtChar (c : Char) : List Char → Option (List Char × List Char)
  | [] => none
  | x :: xs =>
    if x = c then some ([], xs)
    else (splitAtChar c xs).map (fun p => (x :: p.1, p.2))

/-- Python `str.split(sep)` for a one-character separator: all fields are
kept, including empty ones. -/
def splitOnChar (c : Char) : List Char → List (List Char)
  | [] => [[]]
  | x :: xs =>
    if x = c then [] :: splitOnChar c xs
    else
      match splitOnChar c xs with
      | [] => [[x]]
      | f :: fs => (x :: f) :: fs

/-- Python `str.replace("''", "'")`: collapse non-overlapping doubled single
quotes, scanning left to right. -/
def collapseQuotes : List Char → List Char
  | '\'' :: '\'' :: rest => '\'' :: collapseQuotes rest
  | c :: rest => c :: collapseQuotes rest
  | [] => []

/-! ### Python `int` parsing (base 10, for annotation indices) -/

/-- Digits of a base-10 Python int literal after the first digit: single
underscores are permitted between digits. -/
def pyDigitsVal : Nat → List Char → Option Nat
  | acc, [] => some acc
  | acc, '_' :: c :: rest =>
    if c.isDigit then pyDigitsVal (acc * 10 + (c.toNat - 48)) rest else none
  | acc, c :: rest =>
    if c.isDigit then pyDigitsVal (acc * 10 + (c.toNat - 48)) rest else none

/-- Unsigned part of a Python base-10 int literal: at least one digit. -/
def pyIntCore : List Char → Option Nat
  | [] => none
  | c :: rest => if c.isDigit then pyDigitsVal (c.toNat - 48) rest else none

/-- Python `int(s)` (ASCII fragment): surrounding whitespace stripped,
optional sign, digits with optional single underscores between them.
`none` models the `ValueError` raised on any other input. -/
def pyInt? (s : String) : Option Int :=
  match (pyStrip s).data with
  | '+' :: rest => (pyIntCore rest).map Int.ofNat
  | '-' :: rest => (pyIntCore rest).map (fun n => -(n : Int))
  | rest => (pyIntCore rest).map Int.ofNat

/-! ### Unicode escape decoding (`Parser.line`) -/

/-- The character class `[0-9a-zA-Z]` of the `\uXXXX` regex. -/
def isAlnumAscii (c : Char) : Bool :=
  c.isDigit || c.isAlpha

/-- ASCII hexadecimal digit. -/
def pyIsHexDigit (c : Char) : Bool :=
  c.isDigit || ('a' ≤ c && c ≤ 'f') || ('A' ≤ c && c ≤ 'F')

/-- Numeric value of a hexadecimal digit (0 on other characters). -/
def hexVal (c : Char) : Nat :=
  if c.isDigit then c.toNat - 48
  else if 'a' ≤ c && c ≤ 'f' then c.toNat - 87
  else if 'A' ≤ c && c ≤ 'F' then c.toNat - 55
  else 0

/-- Python `int(s, 16)` on the four characters a regex match hands to
`unescape_unicode`: either four hex digits, or a `0x`/`0X`-prefixed pair of
hex digits (Python accepts the radix marker inside `int(_, 16)`).
`none` models the `ValueError` raised otherwise. -/
def pyIntHex4 (a b c d : Char) : Option Nat :=
  if pyIsHexDigit a && pyIsHexDigit b && pyIsHexDigit c && pyIsHexDigit d then
    some (((hexVal a * 16 + hexVal b) * 16 + hexVal c) * 16 + hexVal d)
  else if a = '0' && (b = 'x' || b = 'X') && pyIsHexDigit c && pyIsHexDigit d then
    some (hexVal c * 16 + hexVal d)
  else none

/-- Fuelled scanner for the `re.sub(r"\\u([0-9a-zA-Z]{4})", unescape_unicode,
line)` pass of `Parser.line`: scan left to right for `\u` followed by four
alphanumeric characters, replace each match by `chr(int(match, 16))`; `none`
models the `ValueError` escaping from `int` when the four characters are
alphanumeric but not a valid base-16 literal. On a failed match the scan
advances by one character, as `re.sub` does. Each step consumes at least one
character and one unit of fuel, so with fuel exceeding the length of the
list the fuel 0 case is never reached. -/
def unescapeUnicodeGo : Nat → List Char → Option (List Char)
  | 0, _ => none
  | _ + 1, [] => some []
  | fuel + 1, '\\' :: rest =>
    match rest with
    | u :: a :: b :: c :: d :: rest2 =>
      if u = 'u' && isAlnumAscii a && isAlnumAscii b && isAlnumAscii c && isAlnumAscii d then
        match pyIntHex4 a b c d with
        | some n => (unescapeUnicodeGo fuel rest2).map (fun r => Char.ofNat n :: r)
        | none => none
      else (unescapeUnicodeGo fuel rest).map (fun r => '\\' :: r)
    | _ => (unescapeUnicodeGo fuel rest).map (fun r => '\\' :: r)
  | fuel + 1, c0 :: rest => (unescapeUnicodeGo fuel rest).map (fun r => c0 :: r)

/-- The regex substitution pass of `Parser.line`, at adequate fuel. -/
def unescapeUnicode (l : List Char) : Option (List Char) :=
  unescapeUnicodeGo (l.length + 1) l

/-- Specification-side unicode substitution (fuelled), following the spec's
words: every occurrence of `\u` followed by exactly four hex digits is
replaced by the corresponding single code point, scanning left to right. -/
def specUnicodeSubGo : Nat → List Char → List Char
  | 0, l => l
  | _ + 1, [] => []
  | fuel + 1, '\\' :: rest =>
    match rest with
    | u :: a :: b :: c :: d :: rest2 =>
      if u = 'u' && pyIsHexDigit a && pyIsHexDigit b && pyIsHexDigit c && pyIsHexDigit d then
        Char.ofNat (((hexVal a * 16 + hexVal b) * 16 + hexVal c) * 16 + hexVal d)
          :: specUnicodeSubGo fuel rest2
      else '\\' :: specUnicodeSubGo fuel rest
    | _ => '\\' :: specUnicodeSubGo fuel rest
  | fuel + 1, c0 :: rest => c0 :: specUnicodeSubGo fuel rest

/-- Specification-side unicode substitution: the second definition the
refinement claim C9 compares the code against. -/
def specUnicodeSub (l : List Char) : List Char :=
  specUnicodeSubGo (l.length + 1) l

/-- Fuelled check that every `\u`-plus-four-alphanumerics occurrence in the
list consists of plain hex digits: the inputs on which the code's regex
behaves exactly as the spec's "four hex digits" wording. -/
def plainHexOnlyGo : Nat → List Char → Bool
  | 0, _ => false
  | _ + 1, [] => true
  | fuel + 1, '\\' :: rest =>
    match rest with
    | u :: a :: b :: c :: d :: rest2 =>
      if u = 'u' && isAlnumAscii a && isAlnumAscii b && isAlnumAscii c && isAlnumAscii d then
        pyIsHexDigit a && pyIsHexDigit b && pyIsHexDigit c && pyIsHexDigit d &&
          plainHexOnlyGo fuel rest2
      else plainHexOnlyGo fuel rest
    | _ => plainHexOnlyGo fuel rest
  | fuel + 1, _ :: rest => plainHexOnlyGo fuel rest

/-- Every `\uXXXX` candidate in the list has four plain hex digits. -/
def plainHexOnly (l : List Char) : Bool :=
  plainHexOnlyGo (l.length + 1) l

/-- The `Parser.line` property: the current logical line, i.e. the raw line
with trailing whitespace removed and then `\uXXXX` escapes interpreted.
`none` models the `ValueError` raised on a malformed escape. -/
def logicalLine (raw : String) : Option String :=
  (unescapeUnicode (pyRstrip raw).data).map String.mk

/-! ### Data model: Placeholder, Message components -/

/-- A placeholder within a message (the `Placeholder` dataclass): its index,
optional declared type and optional comment. The index is an `Int` because
the annotation interpreter builds placeholders from Python `int(...)`, which
accepts signed literals. -/
structure Placeholder where
  index : Int
  type_ : Option String
  comment : Option String
deriving DecidableEq

/-- One entry of `Message.components`: Python's `Placeholder | str` union. -/
inductive Component where
  | text (s : String)
  | ph (p : Placeholder)
deriving DecidableEq

/-- A message declared in the file (the `Message` dataclass). -/
structure Message where
  name : String
  components : List Component
deriving DecidableEq

/-- Rendering of one component by `Message.__str__`: literal text verbatim,
a placeholder as `{index}`. -/
def Component.render : Component → String
  | .text s => s
  | .ph p => "\x7b" ++ toString p.index ++ "\x7d"

/-- The `Message.text` property (also `Message.__str__`). -/
def Message.text (m : Message) : String :=
  String.join (m.components.map Component.render)

/-! ### Association lists standing in for Python dicts keyed by int -/

/-- Python dict assignment `d[k] = v`: replace in place if the key is
present, else append (dicts preserve first-insertion order). -/
def updateAssoc {α : Type} : List (Int × α) → Int → α → List (Int × α)
  | [], k, v => [(k, v)]
  | (k1, v1) :: rest, k, v =>
    if k1 = k then (k, v) :: rest else (k1, v1) :: updateAssoc rest k v

/-- Python dict lookup `d.get(k)`. -/
def lookupAssoc {α : Type} : List (Int × α) → Int → Option α
  | [], _ => none
  | (k1, v1) :: rest, k => if k1 = k then some v1 else lookupAssoc rest k

/-! ### The `placeholders` derived view -/

/-- Insertion step of a sort by ascending `index` (Python
`sorted(..., key=lambda p: p.index)`; the keys sorted here are distinct, so
any correct sort produces the same list). -/
def insertByIndex (p : Placeholder) : List Placeholder → List Placeholder
  | [] => [p]
  | q :: qs => if p.index < q.index then p :: q :: qs else q :: insertByIndex p qs

/-- Sort placeholders by ascending index. -/
def sortByIndex (l : List Placeholder) : List Placeholder :=
  l.foldr insertByIndex []

/-- One step of the dict comprehension of `Message.placeholders`: literal
text contributes nothing, a placeholder is stored under its index. -/
def upStep (acc : List (Int × Placeholder)) : Component → List (Int × Placeholder)
  | Component.text _ => acc
  | Component.ph p => updateAssoc acc p.index p

/-- The dict comprehension of `Message.placeholders`: keep one placeholder
per index, a later occurrence overwriting an earlier one. -/
def uniquePlaceholders (cs : List Component) : List (Int × Placeholder) :=
  cs.foldl upStep []

/-- The `Message.placeholders` property: the unique placeholders of the
message, sorted ascending by index. -/
def Message.placeholders (m : Message) : List Placeholder :=
  sortByIndex ((uniquePlaceholders m.components).map Prod.snd)

/-! ### Annotation interpreter (`parse_annotation`) -/

/-- Python `line.removeprefix("#")`: drop a single leading hash. -/
def dropHashOnce : List Char → List Char
  | '#' :: rest => rest
  | l => l

/-- Match of `re.match(r"#\s+{(\d+)}\s+-\s+(.+)$", line)`: a long-form
placeholder comment `# {index} - text`. Returns the index and the comment
text. The trailing `$` matches at the end or before one final newline, and
`.` does not match a newline. -/
def matchLongComment (l : List Char) : Option (Nat × String) :=
  match l with
  | '#' :: r0 =>
    let ws1 := r0.takeWhile pyIsSpace
    let r1 := r0.dropWhile pyIsSpace
    if ws1.isEmpty then none
    else
      match r1 with
      | '{' :: r2 =>
        let ds := r2.takeWhile Char.isDigit
        let r3 := r2.dropWhile Char.isDigit
        if ds.isEmpty then none
        else
          match r3 with
          | '}' :: r4 =>
            let ws2 := r4.takeWhile pyIsSpace
            let r5 := r4.dropWhile pyIsSpace
            if ws2.isEmpty then none
            else
              match r5 with
              | '-' :: r6 =>
                let ws3 := r6.takeWhile pyIsSpace
                let r7 := r6.dropWhile pyIsSpace
                if ws3.isEmpty then none
                else
                  let r8 := if r7.getLast? = some '\n' then r7.dropLast else r7
                  if r8.isEmpty || r8.contains '\n' then none
                  else some (ds.foldl (fun acc c => acc * 10 + (c.toNat - 48)) 0, String.mk r8)
              | _ => none
          | _ => none
      | _ => none
  | _ => none

/-- The entries loop of `parse_annotation`: process the comma-separated
declarations `index: description` of the type-declaration line, building a
dict from index to `Placeholder`. `none` models the early `return {}` taken
when an entry has no `:` or its left side fails Python `int`. -/
def annotEntries (longC : List (Int × String)) :
    List (Int × Placeholder) → List (List Char) → Option (List (Int × Placeholder))
  | acc, [] => some acc
  | acc, d :: ds =>
    let d1 := (pyStrip (String.mk d)).data
    match splitAtChar ':' d1 with
    | none => none
    | some (strIndex, description) =>
      match pyInt? (String.mk strIndex) with
      | none => none
      | some index =>
        let comment : Option String :=
          match splitAtChar '(' description with
          | some (_, commentStr) =>
            let c1 := (pyRstrip (String.mk commentStr)).data
            some (String.mk (if c1.getLast? = some ')' then c1.dropLast else c1))
          | none => lookupAssoc longC index
        let typeStr :=
          match splitAtChar '(' description with
          | some (typePart, _) => pyStrip (String.mk typePart)
          | none => pyStrip (String.mk description)
        annotEntries longC (updateAssoc acc index ⟨index, some typeStr, comment⟩) ds

/-- The `parse_annotation` helper: interpret a block of comment lines as
placeholder type declarations. All comment lines but the last may carry
long-form comments `# {index} - text`; the last is the type-declaration
line. Malformed declarations give the empty mapping. -/
def parseAnnot (lines : List String) : List (Int × Placeholder) :=
  match lines.getLast? with
  | none => []
  | some last =>
    let annotationLine := (pyLstrip (String.mk (dropHashOnce last.data))).data
    if annotationLine.contains ':' then
      let longC : List (Int × String) :=
        lines.dropLast.foldl
          (fun acc l =>
            match matchLongComment l.data with
            | some (i, cmt) => updateAssoc acc (Int.ofNat i) cmt
            | none => acc)
          []
      match annotEntries longC [] (splitOnChar ',' annotationLine) with
      | some types => types
      | none => []
    else []

/-! ### Component splitter (`Parser.make_components`) -/

/-- Leftmost match of the regex `{(\d+)}` in the text, as `re.finditer`
produces it: returns the text before the match, the numeric value of the
digit group and the text after the match. On a failed candidate the scan
advances by one character. -/
def findPlaceholder : List Char → Option (List Char × Nat × List Char)
  | [] => none
  | '{' :: rest =>
    let ds := rest.takeWhile Char.isDigit
    let r2 := rest.dropWhile Char.isDigit
    match r2, ds with
    | '}' :: r3, _ :: _ =>
      some ([], ds.foldl (fun acc c => acc * 10 + (c.toNat - 48)) 0, r3)
    | _, _ => (findPlaceholder rest).map (fun q => ('{' :: q.1, q.2.1, q.2.2))
  | c :: rest => (findPlaceholder rest).map (fun q => (c :: q.1, q.2.1, q.2.2))

/-- Fuelled loop of `Parser.make_components`: for each placeholder match,
append the literal text since the previous match end (even when empty) and
then the placeholder, looked up in the annotation mapping with an untyped
placeholder as fallback; after the last match append the trailing literal
text only if it is non-empty. Each iteration consumes at least three
characters of the text, so fuel exceeding the length of the text never runs
out. -/
def makeComponentsGo (types : List (Int × Placeholder)) : Nat → List Char → List Component
  | 0, _ => []
  | fuel + 1, text =>
    match findPlaceholder text with
    | none => if text.isEmpty then [] else [Component.text (String.mk text)]
    | some (before, index, after) =>
      let p : Placeholder :=
        match lookupAssoc types (Int.ofNat index) with
        | some p => p
        | none => ⟨Int.ofNat index, none, none⟩
      Component.text (String.mk before) :: Component.ph p :: makeComponentsGo types fuel after

/-- The `Parser.make_components` splitter on an already-assembled value,
given the parsed annotation mapping. -/
def makeComponents (types : List (Int × Placeholder)) (text : List Char) : List Component :=
  makeComponentsGo types (text.length + 1) text

/-! ### Parser state machine -/

/-- Exceptions that can escape the parser: `ParseError` (with the production
name reported by `inspect.stack`, the 1-based line number, the offending
logical line and the message), the `StopIteration` escaping the constructor
on empty input, and the `ValueError` escaping `int` inside
`unescape_unicode`. -/
inductive PyErr where
  | parseError (production : String) (lineNo : Nat) (line : String) (msg : String)
  | stopIteration
  | valueError
deriving DecidableEq

/-- Result of running a fuelled piece of the parser: a value, a raised
exception, or fuel exhaustion — the latter standing for non-termination
when it holds at every fuel. -/
inductive PResult (α : Type) where
  | ok (a : α)
  | err (e : PyErr)
  | diverge
deriving DecidableEq

/-- The mutable state of a `Parser` instance: current 1-based line number,
current raw line, remaining raw lines, the `parsing` flag, the accumulated
messages and the pending comment block. -/
structure PState where
  lineNo : Nat
  rawLine : String
  rest : List String
  parsing : Bool
  messages : List Message
  currentComments : List String
deriving DecidableEq

/-- `Parser.next_line`: advance to the next raw line; at end of input the
`StopIteration` is swallowed and only the `parsing` flag is cleared, the
current line remaining in place. -/
def nextLine (st : PState) : PState :=
  match st.rest with
  | [] => { st with parsing := false }
  | r :: rs => { st with lineNo := st.lineNo + 1, rawLine := r, rest := rs }

/-- Append a parsed message (name and assembled value) to the state, as the
tail of `Parser.message` does: components are built by `make_components`
from the pending comment block, and the comment block is then cleared. -/
def emitMessage (st : PState) (name : String) (value : String) : PState :=
  { st with
    messages :=
      st.messages ++ [⟨name, makeComponents (parseAnnot st.currentComments) value.data⟩],
    currentComments := [] }

/-- The `re.sub(r"\\(.)", replace_escape, chunk)` pass of `Parser.value`:
decode `\n`, `\t`, `\'`, `\"`; any other backslash-plus-character match is a
`ParseError` (production name `replace_escape`, the nested function in which
`self.parse_error` is called). A backslash before a newline or at the end of
the chunk is not a match (`.` does not match a newline) and is kept. -/
def replaceEscapes (lineNo : Nat) (ctx : String) : List Char → Except PyErr (List Char)
  | [] => .ok []
  | '\\' :: rest1 =>
    match rest1 with
    | [] => .ok ['\\']
    | c :: rest =>
      if c = '\n' then (replaceEscapes lineNo ctx rest).map (fun r => '\\' :: '\n' :: r)
      else if c = 'n' then (replaceEscapes lineNo ctx rest).map (fun r => '\n' :: r)
      else if c = 't' then (replaceEscapes lineNo ctx rest).map (fun r => '\t' :: r)
      else if c = '\'' then (replaceEscapes lineNo ctx rest).map (fun r => '\'' :: r)
      else if c = '\"' then (replaceEscapes lineNo ctx rest).map (fun r => '\"' :: r)
      else
        .error (.parseError "replace_escape" lineNo ctx
          ("Unknown escape: " ++ String.mk ['\\', c]))
  | c :: rest => (replaceEscapes lineNo ctx rest).map (fun r => c :: r)

/-- The `while has_continuation` loop of `Parser.value`: take the current
logical line, strip leading whitespace and one trailing backslash, decode
escapes, append the chunk; continue while the logical line ends with a
backslash, advancing via `next_line` each iteration. On exit the chunks are
joined and doubled single quotes collapsed. Because `next_line` swallows
`StopIteration`, exhausted input leaves the current line in place; if that
line ends with a backslash the loop never exits, which surfaces here as
`diverge` at every fuel. -/
def valueLoop : Nat → PState → List String → PResult (String × PState)
  | 0, _, _ => .diverge
  | fuel + 1, st, chunks =>
    match logicalLine st.rawLine with
    | none => .err .valueError
    | some l =>
      match replaceEscapes st.lineNo l (dropSuffixBackslash (pyLstrip l)).data with
      | .error e => .err e
      | .ok cs =>
        let chunks2 := chunks ++ [String.mk cs]
        if endsWithBackslash l then valueLoop fuel (nextLine st) chunks2
        else .ok (String.mk (collapseQuotes (String.join chunks2).data), nextLine st)

/-- Continuation of `Parser.message` after the multi-line value returns:
emit the message, propagating an error or divergence of the value loop. -/
def finishValue (name : String) : PResult (String × PState) → PResult PState
  | .diverge => .diverge
  | .err e => .err e
  | .ok (v, st2) => .ok (emitMessage st2 name v)

/-- The `Parser.message` production: split the logical line on the first
`=` (its absence is a `ParseError`), strip the name; a remainder ending in a
backslash starts a multi-line value assembled by `Parser.value` on the
following lines, otherwise the remainder itself, right-stripped, is the
value and the parser advances one line. The parsed message is appended and
the comment block cleared. -/
def messageProd (fuel : Nat) (st : PState) : PResult PState :=
  match logicalLine st.rawLine with
  | none => .err .valueError
  | some l =>
    match splitAtChar '=' l.data with
    | none => .err (.parseError "message" st.lineNo l "expected `property=` here")
    | some (namePart, rest0) =>
      let name := pyStrip (String.mk namePart)
      if endsWithBackslash (String.mk rest0) then
        finishValue name (valueLoop fuel (nextLine st) [])
      else .ok (emitMessage (nextLine st) name (pyRstrip (String.mk rest0)))

/-- The `Parser.item` production: dispatch on the current logical line — a
`#` line is buffered as a comment, an empty line clears the comment buffer,
an alphabetic-initial line starts a message, anything else is a
`ParseError`. -/
def itemStep (fuel : Nat) (st : PState) : PResult PState :=
  match logicalLine st.rawLine with
  | none => .err .valueError
  | some l =>
    match l.data with
    | [] => .ok (nextLine { st with currentComments := [] })
    | c :: _ =>
      if c = '#' then .ok (nextLine { st with currentComments := st.currentComments ++ [l] })
      else if c.isAlpha then messageProd fuel st
      else .err (.parseError "item" st.lineNo l "Parse error")

/-- The `while self.parsing: self.item()` loop of `Parser.parse`. -/
def parseLoop : Nat → PState → PResult (List Message)
  | 0, _ => .diverge
  | fuel + 1, st =>
    if st.parsing then
      match itemStep fuel st with
      | .err e => .err e
      | .diverge => .diverge
      | .ok st2 => parseLoop fuel st2
    else .ok st.messages

/-- `Parser.__init__`: eagerly consume the first line; on an empty line
sequence the `StopIteration` from `next` escapes the constructor. -/
def initParser (lines : List String) : Except PyErr PState :=
  match lines with
  | [] => .error .stopIteration
  | l :: ls =>
    .ok { lineNo := 1, rawLine := l, rest := ls, parsing := true,
          messages := [], currentComments := [] }

/-- The public `parse_messages_from_lines` entry point, at the given fuel:
construct a parser over the lines and run `Parser.parse`. -/
def parse_messages_from_lines (fuel : Nat) (lines : List String) : PResult (List Message) :=
  match initParser lines with
  | .error e => .err e
  | .ok st => parseLoop fuel st

/-! ### Specification-side entry counter (second definition, for claim C4) -/

/-- Logical-line view used by the entry counter; total, since the counter is
only compared with the parser on inputs where the parse succeeds (and there
every line's logical form exists). -/
def specLogicalD (raw : String) : String :=
  (logicalLine raw).getD raw

/-- Counter of top-level `key=value` entries, following the spec's words:
comment and blank lines are skipped, an alphabetic-initial line containing
`=` starts one entry, and an entry whose first logical line ends in a
backslash additionally consumes following lines through the first consumed
line that does not end in a backslash. The Boolean mode is true while
consuming a continued value. -/
def specCountGo : Bool → List String → Nat
  | _, [] => 0
  | true, l :: ls =>
    if endsWithBackslash (specLogicalD l) then specCountGo true ls
    else specCountGo false ls
  | false, l :: ls =>
    let ll := specLogicalD l
    match ll.data with
    | [] => specCountGo false ls
    | c :: _ =>
      if c = '#' then specCountGo false ls
      else if c.isAlpha && ll.data.contains '=' then
        if endsWithBackslash ll then 1 + specCountGo true ls
        else 1 + specCountGo false ls
      else specCountGo false ls

/-- Number of top-level `key=value` entries of an input, per the spec. -/
def specCountEntries (lines : List String) : Nat :=
  specCountGo false lines

/-! ### Predicates used to state the claims -/

/-- A component list contains two adjacent literal-text entries. This must
never hold of parser output (claim C8). -/
def noAdjTexts : List Component → Bool
  | Component.text _ :: Component.text _ :: _ => false
  | _ :: rest => noAdjTexts rest
  | [] => true

/-- An empty literal-text component occurs only immediately before a
placeholder (in particular never as the final component). -/
def emptyOnlyBeforePh : List Component → Bool
  | [] => true
  | Component.text s :: rest =>
    if s = "" then
      match rest with
      | Component.ph _ :: _ => emptyOnlyBeforePh rest
      | _ => false
    else emptyOnlyBeforePh rest
  | Component.ph _ :: rest => emptyOnlyBeforePh rest

/-- The character list contains a doubled single quote. -/
def hasDoubledQuote : List Char → Bool
  | '\'' :: '\'' :: _ => true
  | _ :: rest => hasDoubledQuote rest
  | [] => false

/-- A malformed entry of a type-declaration line: after stripping it has no
`:`, or the part left of its first `:` fails Python `int` parsing. -/
def badEntry (d : List Char) : Bool :=
  match splitAtChar ':' (pyStrip (String.mk d)).data with
  | none => true
  | some (strIndex, _) => (pyInt? (String.mk strIndex)).isNone

/-- The remaining still-unconsumed raw lines of a parser state: the current
line and the tail while `parsing` holds, nothing once input is exhausted. -/
def remainingOf (st : PState) : List String :=
  if st.parsing then st.rawLine :: st.rest else []

/-! ## Theorems -/

/-- C10: on an empty line sequence, `parse_messages_from_lines` raises
`StopIteration` out of the eager `next` in the `Parser` constructor, at
every fuel, rather than returning an empty message list. -/
theorem C10_empty_input_raises_stop_iteration :
    ∀ fuel : Nat,
      parse_messages_from_lines fuel [] = PResult.err PyErr.stopIteration ∧
        parse_messages_from_lines fuel [] ≠ PResult.ok [] := by
  intro fuel
  exact ⟨rfl, fun h => PResult.noConfusion h⟩

/-- Once the input is exhausted while the final logical line still ends in a
backslash, `next_line` silently swallows every further `StopIteration` and
the `while has_continuation` loop of `Parser.value` repeats forever on the
unchanged line: at every fuel the loop reports divergence. -/
theorem valueLoop_stuck (fuel : Nat) (chunks : List String) :
    valueLoop fuel ⟨1, "a=x\\", [], false, [], []⟩ chunks = PResult.diverge := by
  induction fuel generalizing chunks with
  | zero => rfl
  | succ f ih => exact ih (chunks ++ ["a=x"])

/-- C1: the claim that a parse of any finite input terminates (completing or
raising) is contradicted by the code: on the single line `a=x\` — an
unterminated continuation at end of input — the parse diverges at every
fuel, because `next_line` swallows `StopIteration` instead of letting the
value loop's `except StopIteration: break` fire. -/
theorem C1_unterminated_continuation_diverges :
    ∀ fuel : Nat, parse_messages_from_lines fuel ["a=x\\"] = PResult.diverge := by
  intro fuel
  match fuel with
  | 0 => rfl
  | f + 1 =>
    have hv : itemStep f ⟨1, "a=x\\", [], true, [], []⟩ =
        finishValue "a" (valueLoop f ⟨1, "a=x\\", [], false, [], []⟩ []) := rfl
    show (match itemStep f ⟨1, "a=x\\", [], true, [], []⟩ with
          | PResult.err e => PResult.err e
          | PResult.diverge => PResult.diverge
          | PResult.ok st2 => parseLoop f st2) = PResult.diverge
    rw [hv, valueLoop_stuck f []]
    rfl

/-- Helper for C6: the declarations loop of `parse_annotation` takes its
early `return {}` whenever any entry is malformed. -/
theorem annotEntries_none_of_bad (longC : List (Int × String)) :
    ∀ (ds : List (List Char)) (acc : List (Int × Placeholder)),
      (∃ d ∈ ds, badEntry d = true) → annotEntries longC acc ds = none := by
  intro ds
  induction ds with
  | nil =>
    intro acc h
    rcases h with ⟨d, hd, _⟩
    cases hd
  | cons d ds ih =>
    intro acc h
    rcases h with ⟨e, he, hbad⟩
    rcases List.mem_cons.mp he with rfl | he2
    · cases hs : splitAtChar ':' (pyStrip (String.mk e)).data with
      | none => simp [annotEntries, hs]
      | some p =>
        obtain ⟨si, desc⟩ := p
        cases hi : pyInt? (String.mk si) with
        | none => simp [annotEntries, hs, hi]
        | some idx =>
          simp only [badEntry, hs, hi, Option.isNone_some] at hbad
          exact Bool.noConfusion hbad
    · cases hs : splitAtChar ':' (pyStrip (String.mk d)).data with
      | none => simp [annotEntries, hs]
      | some p =>
        obtain ⟨si, desc⟩ := p
        cases hi : pyInt? (String.mk si) with
        | none => simp [annotEntries, hs, hi]
        | some idx =>
          simp only [annotEntries, hs, hi]
          exact ih _ ⟨e, he2, hbad⟩

/-- C6, counterexample: the claim requires an empty mapping whenever an
entry's left side is not a non-negative integer, but `int("-1")` succeeds in
Python, so the declaration line `# -1: foo` produces a non-empty mapping
with a negative index. -/
theorem C6_counterexample :
    parseAnnot ["# -1: foo"] = [(-1, ⟨-1, some "foo", none⟩)] ∧
      parseAnnot ["# -1: foo"] ≠ [] := by
  exact ⟨by decide, by decide⟩

/-- C6, amended: for a comment block whose type-declaration line (the last
line, with one leading `#` removed and left-stripped) contains a `:`, if any
comma-separated entry either lacks a `:` or has a left side that does not
parse as a Python integer literal (signs allowed, so a negative index is
accepted rather than rejected), then `parse_annotation` returns the empty
mapping — no partial annotation is salvaged — and no exception is raised
(the function is total). -/
theorem C6_amended_all_or_nothing :
    ∀ (lines : List String) (last : String),
      lines.getLast? = some last →
      (pyLstrip (String.mk (dropHashOnce last.data))).data.contains ':' = true →
      (∃ d ∈ splitOnChar ',' (pyLstrip (String.mk (dropHashOnce last.data))).data,
        badEntry d = true) →
      parseAnnot lines = [] := by
  intro lines last hlast hcolon hbad
  unfold parseAnnot
  rw [hlast]
  simp only [hcolon, if_true]
  rw [annotEntries_none_of_bad _ _ _ hbad]

/-- C6, witness: the declaration line `# x: a, b` has the entry ` b` with no
colon (and the entry `x: a` whose left side is not an integer), so the whole
annotation collapses to the empty mapping. -/
theorem C6_amended_witness : parseAnnot ["# x: a, b"] = [] := by
  refine C6_amended_all_or_nothing ["# x: a, b"] "# x: a, b" (by decide) (by decide) ?_
  exact ⟨" b".data, by decide, by decide⟩

/-- C5, counterexample: the claim says empty literal spans are never
appended, but the splitter appends the span before each placeholder
unconditionally: the message `a={0}` parses with an empty literal-text
component preceding the placeholder. -/
theorem C5_counterexample :
    parse_messages_from_lines 9 ["a=\x7b0\x7d"] =
        PResult.ok [⟨"a", [Component.text "", Component.ph ⟨0, none, none⟩]⟩] ∧
      Component.text "" ∈
        [Component.text "", Component.ph (⟨0, none, none⟩ : Placeholder)] := by
  exact ⟨by decide, by decide⟩

/-- Helper for C5: at every fuel, the splitter loop emits an empty literal
only immediately before a placeholder. -/
theorem emptyOnlyBeforePh_go (types : List (Int × Placeholder)) :
    ∀ (fuel : Nat) (text : List Char),
      emptyOnlyBeforePh (makeComponentsGo types fuel text) = true := by
  intro fuel
  induction fuel with
  | zero => intro text; rfl
  | succ f ih =>
    intro text
    unfold makeComponentsGo
    cases hf : findPlaceholder text with
    | none =>
      by_cases hempty : text.isEmpty
      · simp [hempty, emptyOnlyBeforePh]
      · have hne : String.mk text ≠ "" := by
          intro hcontra
          apply hempty
          have h2 : text = [] := congrArg String.data hcontra
          rw [h2]
          rfl
        simp [hempty, emptyOnlyBeforePh, hne]
    | some trip =>
      obtain ⟨before, index, after⟩ := trip
      by_cases hb : String.mk before = ""
      · simp [emptyOnlyBeforePh, hb, ih]
      · simp [emptyOnlyBeforePh, hb, ih]

/-- C5, amended: the splitter appends the literal span before each
placeholder unconditionally, even when empty, and suppresses only the
trailing span when empty; hence an empty literal-text component can occur,
but only immediately before a placeholder and never as the final component.
Concretely, `a={0}x` parses with components empty-text, placeholder,
`"x"`. -/
theorem C5_amended_empty_only_before_placeholder :
    (∀ (types : List (Int × Placeholder)) (text : List Char),
        emptyOnlyBeforePh (makeComponents types text) = true) ∧
      parse_messages_from_lines 9 ["a=\x7b0\x7dx"] =
        PResult.ok
          [⟨"a", [Component.text "", Component.ph ⟨0, none, none⟩, Component.text "x"]⟩] := by
  exact ⟨fun types text => emptyOnlyBeforePh_go types (text.length + 1) text, by decide⟩

/-- C3, counterexample: in a single-line value (no trailing backslash) the
doubled single quote is not collapsed — `a=don''t` yields the final text
`don''t` — and the collapse is not idempotent: re-running it on the already
collapsed text of `'''` changes the text again. -/
theorem C3_counterexample :
    parse_messages_from_lines 9 ["a=don\x27\x27t"] =
        PResult.ok [⟨"a", [Component.text "don\x27\x27t"]⟩] ∧
      Message.text ⟨"a", [Component.text "don\x27\x27t"]⟩ = "don\x27\x27t" ∧
      "don\x27\x27t" ≠ "don\x27t" ∧
      String.mk (collapseQuotes (String.mk (collapseQuotes ("\x27\x27\x27").data)).data) ≠
        String.mk (collapseQuotes ("\x27\x27\x27").data) := by
  exact ⟨by decide, by decide, by decide, by decide⟩

/-- Helper for C3: the quote collapse is the identity on text containing no
doubled single quote. -/
theorem collapseQuotes_eq_self :
    ∀ l : List Char, hasDoubledQuote l = false → collapseQuotes l = l := by
  intro l
  induction l using collapseQuotes.induct with
  | case1 rest ih =>
    intro h
    simp [hasDoubledQuote] at h
  | case2 c rest hne ih =>
    intro h
    have hrest : hasDoubledQuote rest = false := by
      cases rest with
      | nil => rfl
      | cons c2 r2 =>
        by_cases hc : c = '\''
        · by_cases hc2 : c2 = '\''
          · exact (hne r2 hc (by rw [hc2])).elim
          · simpa [hasDoubledQuote, hc, hc2] using h
        · simpa [hasDoubledQuote, hc] using h
    have hstep : collapseQuotes (c :: rest) = c :: collapseQuotes rest := by
      cases rest with
      | nil =>
        by_cases hc : c = '\''
        · subst hc
          rfl
        · simp [collapseQuotes, hc]
      | cons c2 r2 =>
        by_cases hc : c = '\''
        · by_cases hc2 : c2 = '\''
          · exact (hne r2 hc (by rw [hc2])).elim
          · simp [collapseQuotes, hc, hc2]
        · simp [collapseQuotes, hc]
    rw [hstep, ih hrest]
  | case3 =>
    intro _
    rfl

/-- Helper for C3: whenever the value loop returns, the value it produces is
the quote collapse of the concatenation of all accumulated chunks — the
collapse is applied once, to the join, not per chunk. -/
theorem valueLoop_ok_collapse :
    ∀ (fuel : Nat) (st : PState) (chunks0 : List String) (v : String) (st2 : PState),
      valueLoop fuel st chunks0 = PResult.ok (v, st2) →
      ∃ chunks, v = String.mk (collapseQuotes (String.join (chunks0 ++ chunks)).data) := by
  intro fuel
  induction fuel with
  | zero =>
    intro st chunks0 v st2 h
    exact PResult.noConfusion h
  | succ f ih =>
    intro st chunks0 v st2 h
    unfold valueLoop at h
    split at h
    · exact PResult.noConfusion h
    · split at h
      · exact PResult.noConfusion h
      · rename_i l hl cs hr
        split at h
        · obtain ⟨chunks, hv⟩ := ih _ _ _ _ h
          refine ⟨String.mk cs :: chunks, ?_⟩
          rw [hv, List.append_assoc]
          rfl
        · refine ⟨[String.mk cs], ?_⟩
          injection h with hpair
          injection hpair with hv hst
          rw [← hv]

/-- C3, amended: doubled single quotes are collapsed only in
backslash-continued values, where the collapse is applied exactly once to
the concatenation of all chunks after joining; a single-line value is
returned verbatim; and re-running the collapse is a no-op on any text with
no remaining doubled quote. -/
theorem C3_amended_collapse_once_after_join :
    (∀ s : String, hasDoubledQuote s.data = false → String.mk (collapseQuotes s.data) = s) ∧
      (∀ (fuel : Nat) (st : PState) (v : String) (st2 : PState),
        valueLoop fuel st [] = PResult.ok (v, st2) →
        ∃ chunks, v = String.mk (collapseQuotes (String.join chunks).data)) ∧
      parse_messages_from_lines 9 ["a=\\", " don\x27\x27t"] =
        PResult.ok [⟨"a", [Component.text "don\x27t"]⟩] := by
  refine ⟨?_, ?_, by decide⟩
  · intro s h
    rw [collapseQuotes_eq_self s.data h]
  · intro fuel st v st2 h
    exact valueLoop_ok_collapse fuel st [] v st2 h

/-- C3, witness: the no-op part applied to the collapsed text `ab`, and the
collapse-of-join part applied to a concrete run of the value loop on the
line ` don''t`. -/
theorem C3_amended_witness :
    String.mk (collapseQuotes ("ab").data) = "ab" ∧
      ∃ chunks, "don\x27t" = String.mk (collapseQuotes (String.join chunks).data) := by
  constructor
  · exact C3_amended_collapse_once_after_join.1 "ab" (by decide)
  · exact C3_amended_collapse_once_after_join.2.1 2
      ⟨1, " don\x27\x27t", [], true, [], []⟩ "don\x27t"
      ⟨1, " don\x27\x27t", [], false, [], []⟩ (by decide)

/-! ### State lemmas for the counting invariant (claim C4) -/

/-- `next_line` does not touch the accumulated messages. -/
theorem nextLine_messages (st : PState) : (nextLine st).messages = st.messages := by
  unfold nextLine
  cases st.rest <;> rfl

/-- `next_line` does not touch the pending comment block. -/
theorem nextLine_comments (st : PState) :
    (nextLine st).currentComments = st.currentComments := by
  unfold nextLine
  cases st.rest <;> rfl

/-- While parsing, advancing consumes exactly the head of the remaining
lines. -/
theorem remainingOf_nextLine (st : PState) (h : st.parsing = true) :
    remainingOf (nextLine st) = st.rest := by
  unfold nextLine
  cases hr : st.rest with
  | nil => simp [remainingOf]
  | cons r rs => simp [remainingOf, h]

/-- Once parsing has stopped there are no remaining lines. -/
theorem remainingOf_of_not_parsing (st : PState) (h : st.parsing = false) :
    remainingOf st = [] := by
  simp [remainingOf, h]

/-- Advancing never restarts a stopped parser. -/
theorem nextLine_parsing_false (st : PState) (h : st.parsing = false) :
    (nextLine st).parsing = false := by
  unfold nextLine
  cases st.rest <;> simp [h]

/-- A successful `partition` exhibits the split. -/
theorem splitAtChar_eq_append {c : Char} :
    ∀ {l a b : List Char}, splitAtChar c l = some (a, b) → l = a ++ c :: b := by
  intro l
  induction l with
  | nil =>
    intro a b h
    exact Option.noConfusion h
  | cons x xs ih =>
    intro a b h
    unfold splitAtChar at h
    by_cases hx : x = c
    · rw [if_pos hx] at h
      injection h with h2
      injection h2 with ha hb
      subst ha
      subst hb
      rw [hx]
      rfl
    · rw [if_neg hx] at h
      cases hs : splitAtChar c xs with
      | none =>
        rw [hs] at h
        exact Option.noConfusion h
      | some p =>
        obtain ⟨a1, b1⟩ := p
        rw [hs] at h
        simp only [Option.map_some'] at h
        injection h with h2
        injection h2 with ha hb
        subst ha
        subst hb
        rw [List.cons_append, ← ih hs]

/-- A successful `partition` witnesses that the separator occurs. -/
theorem contains_of_splitAtChar {c : Char} {l a b : List Char}
    (h : splitAtChar c l = some (a, b)) : l.contains c = true := by
  rw [splitAtChar_eq_append h]
  have hm : c ∈ a ++ c :: b := List.mem_append_right _ (List.mem_cons_self c b)
  exact List.elem_eq_true_of_mem hm

/-- Whether the remainder after the first `=` ends in a backslash is the
same as whether the whole logical line does. -/
theorem endsWithBackslash_of_split {l : String} {a b : List Char}
    (h : splitAtChar '=' l.data = some (a, b)) :
    endsWithBackslash (String.mk b) = endsWithBackslash l := by
  have hd : l.data = a ++ '=' :: b := splitAtChar_eq_append h
  unfold endsWithBackslash
  rw [hd, List.getLast?_append_cons]
  cases b with
  | nil => rfl
  | cons x xs => rw [List.getLast?_cons_cons]

/-- The value loop preserves the accumulated messages and comment block and
turns remaining-line consumption in continuation mode into the counter's
continuation mode. -/
theorem valueLoop_ok_spec :
    ∀ (fuel : Nat) (st : PState) (chunks : List String) (v : String) (st2 : PState),
      valueLoop fuel st chunks = PResult.ok (v, st2) →
      st2.messages = st.messages ∧ st2.currentComments = st.currentComments ∧
        specCountGo false (remainingOf st2) = specCountGo true (remainingOf st) := by
  intro fuel
  induction fuel with
  | zero =>
    intro st chunks v st2 h
    exact PResult.noConfusion h
  | succ f ih =>
    intro st chunks v st2 h
    unfold valueLoop at h
    split at h
    · exact PResult.noConfusion h
    · split at h
      · exact PResult.noConfusion h
      · rename_i lopt l hl exc cs hr
        split at h
        · rename_i hc
          obtain ⟨hm, hcom, hcount⟩ := ih _ _ _ _ h
          refine ⟨by rw [hm, nextLine_messages], by rw [hcom, nextLine_comments], ?_⟩
          rw [hcount]
          by_cases hp : st.parsing = true
          · rw [remainingOf_nextLine st hp]
            simp [remainingOf, hp, specCountGo, specLogicalD, hl, hc]
          · have hp2 : st.parsing = false := by simpa using hp
            rw [remainingOf_of_not_parsing st hp2,
              remainingOf_of_not_parsing _ (nextLine_parsing_false st hp2)]
        · rename_i hc
          injection h with hpair
          injection hpair with hv hst
          subst hst
          refine ⟨nextLine_messages st, nextLine_comments st, ?_⟩
          by_cases hp : st.parsing = true
          · rw [remainingOf_nextLine st hp]
            simp [remainingOf, hp, specCountGo, specLogicalD, hl, hc]
          · have hp2 : st.parsing = false := by simpa using hp
            rw [remainingOf_of_not_parsing st hp2,
              remainingOf_of_not_parsing _ (nextLine_parsing_false st hp2)]
            rfl

/-- The message production appends exactly one message and consumes exactly
one counted entry. -/
theorem messageProd_ok_count (fuel : Nat) (st st2 : PState) (hp : st.parsing = true)
    (l : String) (hl : logicalLine st.rawLine = some l)
    (c : Char) (cls : List Char) (hd : l.data = c :: cls) (hca : c.isAlpha = true)
    (h : messageProd fuel st = PResult.ok st2) :
    st2.messages.length + specCountGo false (remainingOf st2) =
      st.messages.length + specCountGo false (remainingOf st) := by
  have hch : ¬c = '#' := by
    intro e
    rw [e] at hca
    simp at hca
  unfold messageProd at h
  split at h
  · exact PResult.noConfusion h
  · rename_i lopt l2 hl2
    rw [hl] at hl2
    injection hl2 with hll
    subst hll
    split at h
    · exact PResult.noConfusion h
    · rename_i pr namePart rest0 hsp
      have hmem : '=' ∈ c :: cls := by
        rw [← hd, splitAtChar_eq_append hsp]
        exact List.mem_append_right _ (List.mem_cons_self _ _)
      split at h
      · rename_i hcont
        cases hv : valueLoop fuel (nextLine st) [] with
        | diverge =>
          rw [hv] at h
          exact PResult.noConfusion h
        | err e =>
          rw [hv] at h
          exact PResult.noConfusion h
        | ok p =>
          obtain ⟨v, st3⟩ := p
          rw [hv] at h
          simp only [finishValue] at h
          injection h with h2
          subst h2
          obtain ⟨hm3, -, hcount3⟩ := valueLoop_ok_spec fuel (nextLine st) [] v st3 hv
          have hewl : endsWithBackslash l = true := by
            rw [← endsWithBackslash_of_split hsp]
            exact hcont
          have h1 : (emitMessage st3 (pyStrip (String.mk namePart)) v).messages.length =
              st.messages.length + 1 := by
            simp [emitMessage, hm3, nextLine_messages]
          have h2 : remainingOf (emitMessage st3 (pyStrip (String.mk namePart)) v) =
              remainingOf st3 := rfl
          have h4 : specCountGo false (remainingOf st3) = specCountGo true st.rest := by
            rw [hcount3, remainingOf_nextLine st hp]
          have h5 : specCountGo false (remainingOf st) = 1 + specCountGo true st.rest := by
            simp only [remainingOf, hp, if_true, specCountGo, specLogicalD, hl,
              Option.getD_some, hd, hewl]
            simp [hch, hca]
            intro hne hnotin
            rcases List.mem_cons.mp hmem with he | he
            · exact absurd he hne
            · exact absurd he hnotin
          rw [h1, h2, h4, h5]
          omega
      · rename_i hcont
        injection h with h2
        subst h2
        have hewl : endsWithBackslash l = false := by
          rw [← endsWithBackslash_of_split hsp]
          cases hcase : endsWithBackslash (String.mk rest0) with
          | false => rfl
          | true => exact absurd hcase hcont
        have h1 : (emitMessage (nextLine st) (pyStrip (String.mk namePart))
            (pyRstrip (String.mk rest0))).messages.length = st.messages.length + 1 := by
          simp [emitMessage, nextLine_messages]
        have h2 : remainingOf (emitMessage (nextLine st) (pyStrip (String.mk namePart))
            (pyRstrip (String.mk rest0))) = remainingOf (nextLine st) := rfl
        have h5 : specCountGo false (remainingOf st) = 1 + specCountGo false st.rest := by
          simp only [remainingOf, hp, if_true, specCountGo, specLogicalD, hl,
            Option.getD_some, hd, hewl]
          simp [hch, hca]
          intro hne
          rcases List.mem_cons.mp hmem with he | he
          · exact absurd he hne
          · exact he
        rw [h1, h2, remainingOf_nextLine st hp, h5]
        omega

/-- One `item` step preserves the sum of emitted messages and entries still
to come. -/
theorem itemStep_ok_count (fuel : Nat) (st st2 : PState) (hp : st.parsing = true)
    (h : itemStep fuel st = PResult.ok st2) :
    st2.messages.length + specCountGo false (remainingOf st2) =
      st.messages.length + specCountGo false (remainingOf st) := by
  unfold itemStep at h
  split at h
  · exact PResult.noConfusion h
  · rename_i lopt l hl
    split at h
    · rename_i hdata
      injection h with h2
      subst h2
      rw [remainingOf_nextLine { st with currentComments := ([] : List String) } hp,
        nextLine_messages]
      simp [remainingOf, hp, specCountGo, specLogicalD, hl, hdata]
    · rename_i c cls hdata
      split at h
      · rename_i hch
        injection h with h2
        subst h2
        rw [remainingOf_nextLine
          { st with currentComments := st.currentComments ++ [l] } hp, nextLine_messages]
        simp [remainingOf, hp, specCountGo, specLogicalD, hl, hdata, hch]
      · split at h
        · rename_i hch hca
          exact messageProd_ok_count fuel st st2 hp l hl c cls hdata hca h
        · exact PResult.noConfusion h

/-- The parse loop returns exactly the accumulated messages plus one message
per remaining counted entry. -/
theorem parseLoop_ok_count :
    ∀ (fuel : Nat) (st : PState) (msgs : List Message),
      parseLoop fuel st = PResult.ok msgs →
      msgs.length = st.messages.length + specCountGo false (remainingOf st) := by
  intro fuel
  induction fuel with
  | zero =>
    intro st msgs h
    exact PResult.noConfusion h
  | succ f ih =>
    intro st msgs h
    unfold parseLoop at h
    split at h
    · rename_i hp
      split at h
      · exact PResult.noConfusion h
      · exact PResult.noConfusion h
      · rename_i stn hi
        rw [ih stn msgs h, itemStep_ok_count f st stn hp hi]
    · rename_i hp
      injection h with h2
      subst h2
      have hp2 : st.parsing = false := by simpa using hp
      rw [remainingOf_of_not_parsing st hp2]
      simp [specCountGo]

/-- C4: whenever the parse succeeds, the number of returned messages equals
the number of top-level `key=value` entries (single-line or
backslash-continued) of the input as counted from the spec's words —
including zero messages for an input of only comments and blanks, which
never themselves produce a message. -/
theorem C4_message_count :
    (∀ (fuel : Nat) (lines : List String) (msgs : List Message),
        parse_messages_from_lines fuel lines = PResult.ok msgs →
        msgs.length = specCountEntries lines) ∧
      parse_messages_from_lines 9 ["# note", ""] = PResult.ok [] := by
  constructor
  · intro fuel lines msgs h
    cases lines with
    | nil => exact PResult.noConfusion h
    | cons l ls =>
      have h2 : parseLoop fuel ⟨1, l, ls, true, [], []⟩ = PResult.ok msgs := h
      have h3 := parseLoop_ok_count fuel _ msgs h2
      simpa [remainingOf, specCountEntries] using h3
  · decide

/-- C4, witness: a concrete input with one comment line, one single-line
entry and one continued entry parses to two messages, matching the counted
entries. -/
theorem C4_message_count_witness :
    ∃ msgs, parse_messages_from_lines 9 ["# c", "a=b", "x=\\", " y"] = PResult.ok msgs ∧
      msgs.length = specCountEntries ["# c", "a=b", "x=\\", " y"] := by
  refine ⟨_, rfl, C4_message_count.1 9 _ _ rfl⟩

/-! ### The `placeholders` view: uniqueness and sortedness (claims C7, C8) -/

/-- Membership in an insertion step of the sort. -/
theorem mem_insertByIndex (p q : Placeholder) :
    ∀ l : List Placeholder, q ∈ insertByIndex p l ↔ q = p ∨ q ∈ l := by
  intro l
  induction l with
  | nil => simp [insertByIndex]
  | cons r rs ih =>
    unfold insertByIndex
    by_cases hlt : p.index < r.index
    · simp [hlt]
    · simp only [hlt, if_false, List.mem_cons, ih]
      tauto

/-- Inserting is a permutation of consing. -/
theorem perm_insertByIndex (p : Placeholder) :
    ∀ l : List Placeholder, (insertByIndex p l).Perm (p :: l) := by
  intro l
  induction l with
  | nil => exact List.Perm.refl _
  | cons r rs ih =>
    unfold insertByIndex
    by_cases hlt : p.index < r.index
    · rw [if_pos hlt]
    · rw [if_neg hlt]
      exact (List.Perm.cons r ih).trans (List.Perm.swap p r rs)

/-- Sorting is a permutation. -/
theorem sortByIndex_perm :
    ∀ l : List Placeholder, (sortByIndex l).Perm l := by
  intro l
  induction l with
  | nil => exact List.Perm.refl _
  | cons p ps ih => exact (perm_insertByIndex p _).trans (List.Perm.cons p ih)

/-- Insertion preserves sortedness by index. -/
theorem pairwise_le_insertByIndex (p : Placeholder) :
    ∀ l : List Placeholder, l.Pairwise (fun a b => a.index ≤ b.index) →
      (insertByIndex p l).Pairwise (fun a b => a.index ≤ b.index) := by
  intro l
  induction l with
  | nil =>
    intro _
    simp [insertByIndex]
  | cons r rs ih =>
    intro hp
    unfold insertByIndex
    by_cases hlt : p.index < r.index
    · rw [if_pos hlt]
      refine List.Pairwise.cons ?_ hp
      intro q hq
      rcases List.mem_cons.mp hq with rfl | hq2
      · exact le_of_lt hlt
      · exact le_trans (le_of_lt hlt) (List.rel_of_pairwise_cons hp hq2)
    · rw [if_neg hlt]
      have hle : r.index ≤ p.index := le_of_not_lt hlt
      rcases List.pairwise_cons.mp hp with ⟨hr, hrs⟩
      refine List.Pairwise.cons ?_ (ih hrs)
      intro q hq
      rcases (mem_insertByIndex p q rs).mp hq with rfl | hq2
      · exact hle
      · exact hr q hq2

/-- The sorted view is pairwise nondecreasing in index. -/
theorem sortByIndex_pairwise_le :
    ∀ l : List Placeholder, (sortByIndex l).Pairwise (fun a b => a.index ≤ b.index) := by
  intro l
  induction l with
  | nil => simp [sortByIndex]
  | cons p ps ih => exact pairwise_le_insertByIndex p _ ih

/-- Dict assignment adds the new key and keeps the others. -/
theorem mem_keys_updateAssoc {α : Type} (k : Int) (v : α) (i : Int) :
    ∀ l : List (Int × α),
      (i ∈ (updateAssoc l k v).map Prod.fst ↔ i = k ∨ i ∈ l.map Prod.fst) := by
  intro l
  induction l with
  | nil => simp [updateAssoc]
  | cons kv rest ih =>
    obtain ⟨k1, v1⟩ := kv
    unfold updateAssoc
    by_cases he : k1 = k
    · subst he
      simp
    · simp only [he, if_false, List.map_cons, List.mem_cons, ih]
      tauto

/-- Dict assignment preserves key distinctness. -/
theorem nodup_keys_updateAssoc {α : Type} (k : Int) (v : α) :
    ∀ l : List (Int × α), (l.map Prod.fst).Nodup →
      ((updateAssoc l k v).map Prod.fst).Nodup := by
  intro l
  induction l with
  | nil =>
    intro _
    simp [updateAssoc]
  | cons kv rest ih =>
    obtain ⟨k1, v1⟩ := kv
    intro hnd
    rw [List.map_cons, List.nodup_cons] at hnd
    obtain ⟨hnotin, hnd2⟩ := hnd
    unfold updateAssoc
    by_cases he : k1 = k
    · subst he
      simp [List.nodup_cons, hnotin, hnd2]
    · simp only [he, if_false, List.map_cons, List.nodup_cons]
      refine ⟨?_, ih hnd2⟩
      intro hmem
      rcases (mem_keys_updateAssoc k v k1 rest).mp hmem with rfl | h2
      · exact he rfl
      · exact hnotin h2

/-- The `placeholders` dict maps each index key to a placeholder carrying
that index. -/
theorem coherent_updateAssoc (k : Int) (v : Placeholder) (hv : v.index = k) :
    ∀ l : List (Int × Placeholder),
      (∀ kv ∈ l, (kv.2).index = kv.1) →
      ∀ kv ∈ updateAssoc l k v, (kv.2).index = kv.1 := by
  intro l
  induction l with
  | nil =>
    intro _ kv hkv
    have he2 := List.mem_singleton.mp hkv
    rw [he2]
    exact hv
  | cons kv1 rest ih =>
    obtain ⟨k1, v1⟩ := kv1
    intro hco kv hkv
    unfold updateAssoc at hkv
    by_cases he : k1 = k
    · subst he
      rw [if_pos rfl] at hkv
      rcases List.mem_cons.mp hkv with he2 | h2
      · rw [he2]
        exact hv
      · exact hco kv (List.mem_cons_of_mem _ h2)
    · rw [if_neg he] at hkv
      rcases List.mem_cons.mp hkv with he2 | h2
      · rw [he2]
        exact hco (k1, v1) (List.mem_cons_self _ _)
      · exact ih (fun kv2 hkv2 => hco kv2 (List.mem_cons_of_mem _ hkv2)) kv h2

/-- An index is a key of the accumulated dict exactly when it was one
already or some placeholder component carries it. -/
theorem foldl_upStep_keys (i : Int) :
    ∀ (cs : List Component) (acc : List (Int × Placeholder)),
      i ∈ (cs.foldl upStep acc).map Prod.fst ↔
        i ∈ acc.map Prod.fst ∨ ∃ p : Placeholder, Component.ph p ∈ cs ∧ p.index = i := by
  intro cs
  induction cs with
  | nil => simp
  | cons comp rest ih =>
    intro acc
    cases comp with
    | text s =>
      simp only [List.foldl_cons, upStep, ih, List.mem_cons]
      constructor
      · rintro (h | ⟨p, hp, hi⟩)
        · exact Or.inl h
        · exact Or.inr ⟨p, Or.inr hp, hi⟩
      · rintro (h | ⟨p, hp | hp, hi⟩)
        · exact Or.inl h
        · exact absurd hp (by simp)
        · exact Or.inr ⟨p, hp, hi⟩
    | ph p =>
      simp only [List.foldl_cons, upStep, ih, mem_keys_updateAssoc, List.mem_cons]
      constructor
      · rintro ((rfl | h) | ⟨q, hq, hi⟩)
        · exact Or.inr ⟨p, Or.inl rfl, rfl⟩
        · exact Or.inl h
        · exact Or.inr ⟨q, Or.inr hq, hi⟩
      · rintro (h | ⟨q, hq | hq, hi⟩)
        · exact Or.inl (Or.inr h)
        · rcases Component.ph.injEq q p ▸ hq with rfl
          exact Or.inl (Or.inl hi.symm)
        · exact Or.inr ⟨q, hq, hi⟩

/-- The dict built from the components has distinct keys. -/
theorem foldl_upStep_nodup :
    ∀ (cs : List Component) (acc : List (Int × Placeholder)),
      (acc.map Prod.fst).Nodup → ((cs.foldl upStep acc).map Prod.fst).Nodup := by
  intro cs
  induction cs with
  | nil =>
    intro acc h
    exact h
  | cons comp rest ih =>
    intro acc h
    cases comp with
    | text s => exact ih acc h
    | ph p => exact ih _ (nodup_keys_updateAssoc p.index p acc h)

/-- Every entry of the dict built from the components carries its key as its
index. -/
theorem foldl_upStep_coherent :
    ∀ (cs : List Component) (acc : List (Int × Placeholder)),
      (∀ kv ∈ acc, (kv.2).index = kv.1) →
      ∀ kv ∈ cs.foldl upStep acc, (kv.2).index = kv.1 := by
  intro cs
  induction cs with
  | nil =>
    intro acc h
    exact h
  | cons comp rest ih =>
    intro acc h
    cases comp with
    | text s => exact ih acc h
    | ph p => exact ih _ (coherent_updateAssoc p.index p rfl acc h)

/-- A list pairwise nondecreasing in index whose indices are distinct is
pairwise strictly increasing. -/
theorem pairwise_lt_of_le_nodup :
    ∀ l : List Placeholder, l.Pairwise (fun a b => a.index ≤ b.index) →
      (l.map Placeholder.index).Nodup → l.Pairwise (fun a b => a.index < b.index) := by
  intro l
  induction l with
  | nil =>
    intro _ _
    exact List.Pairwise.nil
  | cons p ps ih =>
    intro hle hnd
    rcases List.pairwise_cons.mp hle with ⟨hp, hle2⟩
    rw [List.map_cons, List.nodup_cons] at hnd
    obtain ⟨hpnot, hnd2⟩ := hnd
    refine List.Pairwise.cons ?_ (ih hle2 hnd2)
    intro q hq
    refine lt_of_le_of_ne (hp q hq) ?_
    intro he
    exact hpnot (he ▸ List.mem_map_of_mem Placeholder.index hq)

/-- The sorted unique view of a message is pairwise strictly increasing in
index. -/
theorem placeholders_sorted_lt (m : Message) :
    m.placeholders.Pairwise (fun p q => p.index < q.index) := by
  have hle := sortByIndex_pairwise_le ((uniquePlaceholders m.components).map Prod.snd)
  have hnodupkeys : ((uniquePlaceholders m.components).map Prod.fst).Nodup :=
    foldl_upStep_nodup m.components [] (by simp)
  have hco := foldl_upStep_coherent m.components [] (by simp)
  have hmapeq : ((uniquePlaceholders m.components).map Prod.snd).map Placeholder.index =
      (uniquePlaceholders m.components).map Prod.fst := by
    rw [List.map_map]
    exact List.map_congr_left (fun kv hkv => hco kv hkv)
  have hnodup1 :
      (((uniquePlaceholders m.components).map Prod.snd).map Placeholder.index).Nodup := by
    rw [hmapeq]
    exact hnodupkeys
  have hperm := sortByIndex_perm ((uniquePlaceholders m.components).map Prod.snd)
  have hnodup2 : ((sortByIndex ((uniquePlaceholders m.components).map Prod.snd)).map
      Placeholder.index).Nodup :=
    ((hperm.map Placeholder.index).nodup_iff).mpr hnodup1
  show (sortByIndex ((uniquePlaceholders m.components).map Prod.snd)).Pairwise
    (fun p q => p.index < q.index)
  exact pairwise_lt_of_le_nodup _ hle hnodup2

/-- An index occurs among a message's `placeholders` exactly when a
placeholder component of the message carries it. -/
theorem placeholders_index_iff (m : Message) (i : Int) :
    (∃ p, p ∈ m.placeholders ∧ p.index = i) ↔
      ∃ p, Component.ph p ∈ m.components ∧ p.index = i := by
  constructor
  · rintro ⟨p, hp, hidx⟩
    have hp2 : p ∈ (uniquePlaceholders m.components).map Prod.snd :=
      (sortByIndex_perm _).mem_iff.mp hp
    obtain ⟨kv, hkv, hsnd⟩ := List.mem_map.mp hp2
    have hkey : kv.1 = i := by
      rw [← foldl_upStep_coherent m.components [] (by simp) kv hkv, hsnd, hidx]
    have hmemk : i ∈ (uniquePlaceholders m.components).map Prod.fst :=
      hkey ▸ List.mem_map_of_mem Prod.fst hkv
    rcases (foldl_upStep_keys i m.components []).mp hmemk with h | h
    · simp at h
    · exact h
  · rintro ⟨p, hp, hidx⟩
    have hmemk : i ∈ (uniquePlaceholders m.components).map Prod.fst :=
      (foldl_upStep_keys i m.components []).mpr (Or.inr ⟨p, hp, hidx⟩)
    obtain ⟨kv, hkv, hfst⟩ := List.mem_map.mp hmemk
    refine ⟨kv.2, ?_, ?_⟩
    · exact (sortByIndex_perm _).mem_iff.mpr (List.mem_map_of_mem Prod.snd hkv)
    · rw [foldl_upStep_coherent m.components [] (by simp) kv hkv, hfst]

/-- C7: for every message, the `placeholders` view has exactly one entry per
distinct placeholder index occurring in `components` — it is strictly
sorted ascending by index (hence one entry per index), and an index occurs
in it exactly when some placeholder component carries it, regardless of the
order or multiplicity of occurrences in the value text. -/
theorem C7_placeholders_unique_sorted :
    ∀ m : Message,
      m.placeholders.Pairwise (fun p q => p.index < q.index) ∧
        ∀ i : Int,
          (∃ p, p ∈ m.placeholders ∧ p.index = i) ↔
            ∃ p, Component.ph p ∈ m.components ∧ p.index = i :=
  fun m => ⟨placeholders_sorted_lt m, fun i => placeholders_index_iff m i⟩

/-- Helper for C8: at every fuel the splitter never emits two adjacent
literal-text components. -/
theorem noAdjTexts_go (types : List (Int × Placeholder)) :
    ∀ (fuel : Nat) (text : List Char),
      noAdjTexts (makeComponentsGo types fuel text) = true := by
  intro fuel
  induction fuel with
  | zero =>
    intro text
    rfl
  | succ f ih =>
    intro text
    unfold makeComponentsGo
    cases hf : findPlaceholder text with
    | none =>
      by_cases hempty : text.isEmpty
      · simp [hempty, noAdjTexts]
      · simp [hempty, noAdjTexts]
    | some trip =>
      obtain ⟨before, index, after⟩ := trip
      simp [noAdjTexts, ih]

/-- Helper for C8: the message production only ever appends a message whose
components were built by the splitter. -/
theorem messageProd_shape (fuel : Nat) (st st2 : PState)
    (h : messageProd fuel st = PResult.ok st2)
    (hst : ∀ m ∈ st.messages, ∃ types text, m.components = makeComponents types text) :
    ∀ m ∈ st2.messages, ∃ types text, m.components = makeComponents types text := by
  unfold messageProd at h
  split at h
  · exact PResult.noConfusion h
  · rename_i lopt l hl
    split at h
    · exact PResult.noConfusion h
    · rename_i pr namePart rest0 hsp
      split at h
      · rename_i hcont
        cases hv : valueLoop fuel (nextLine st) [] with
        | diverge =>
          rw [hv] at h
          exact PResult.noConfusion h
        | err e =>
          rw [hv] at h
          exact PResult.noConfusion h
        | ok p =>
          obtain ⟨v, st3⟩ := p
          rw [hv] at h
          simp only [finishValue] at h
          injection h with h2
          subst h2
          obtain ⟨hm3, -, -⟩ := valueLoop_ok_spec fuel (nextLine st) [] v st3 hv
          intro m hm
          simp only [emitMessage, List.mem_append, List.mem_singleton] at hm
          rcases hm with hm | hm
          · exact hst m (by rw [← nextLine_messages st, ← hm3]; exact hm)
          · rw [hm]
            exact ⟨parseAnnot st3.currentComments, v.data, rfl⟩
      · rename_i hcont
        injection h with h2
        subst h2
        intro m hm
        simp only [emitMessage, List.mem_append, List.mem_singleton] at hm
        rcases hm with hm | hm
        · exact hst m (by rw [← nextLine_messages st]; exact hm)
        · rw [hm]
          exact ⟨parseAnnot (nextLine st).currentComments,
            (pyRstrip (String.mk rest0)).data, rfl⟩

/-- Helper for C8: one `item` step preserves the "components built by the
splitter" property of all accumulated messages. -/
theorem itemStep_shape (fuel : Nat) (st st2 : PState)
    (h : itemStep fuel st = PResult.ok st2)
    (hst : ∀ m ∈ st.messages, ∃ types text, m.components = makeComponents types text) :
    ∀ m ∈ st2.messages, ∃ types text, m.components = makeComponents types text := by
  unfold itemStep at h
  split at h
  · exact PResult.noConfusion h
  · rename_i lopt l hl
    split at h
    · rename_i hdata
      injection h with h2
      subst h2
      intro m hm
      refine hst m ?_
      rw [← nextLine_messages { st with currentComments := ([] : List String) }]
      exact hm
    · rename_i c cls hdata
      split at h
      · rename_i hch
        injection h with h2
        subst h2
        intro m hm
        refine hst m ?_
        rw [← nextLine_messages { st with currentComments := st.currentComments ++ [l] }]
        exact hm
      · split at h
        · rename_i hch hca
          exact messageProd_shape fuel st st2 h hst
        · exact PResult.noConfusion h

/-- Helper for C8: every message a successful parse returns has components
built by the splitter. -/
theorem parseLoop_shape :
    ∀ (fuel : Nat) (st : PState) (msgs : List Message),
      parseLoop fuel st = PResult.ok msgs →
      (∀ m ∈ st.messages, ∃ types text, m.components = makeComponents types text) →
      ∀ m ∈ msgs, ∃ types text, m.components = makeComponents types text := by
  intro fuel
  induction fuel with
  | zero =>
    intro st msgs h
    exact PResult.noConfusion h
  | succ f ih =>
    intro st msgs h hst
    unfold parseLoop at h
    split at h
    · split at h
      · exact PResult.noConfusion h
      · exact PResult.noConfusion h
      · rename_i stn hi
        exact ih stn msgs h (itemStep_shape f st stn hi hst)
    · injection h with h2
      subst h2
      exact hst

/-- C8: no message produced by the parser has two adjacent literal-text
components (proved for every successful parse through the splitter's
invariant), and every index appearing as a placeholder in any message's
components has a matching entry in the `placeholders` view. -/
theorem C8_components_invariants :
    (∀ (fuel : Nat) (lines : List String) (msgs : List Message),
        parse_messages_from_lines fuel lines = PResult.ok msgs →
        ∀ m ∈ msgs, noAdjTexts m.components = true) ∧
      ∀ (m : Message) (p : Placeholder), Component.ph p ∈ m.components →
        ∃ q, q ∈ m.placeholders ∧ q.index = p.index := by
  constructor
  · intro fuel lines msgs h m hm
    have hshape : ∀ m2 ∈ msgs, ∃ types text, m2.components = makeComponents types text := by
      cases lines with
      | nil => exact PResult.noConfusion h
      | cons l ls =>
        exact parseLoop_shape fuel ⟨1, l, ls, true, [], []⟩ msgs h (by simp)
    obtain ⟨types, text, he⟩ := hshape m hm
    rw [he]
    exact noAdjTexts_go types (text.length + 1) text
  · intro m p hp
    exact (placeholders_index_iff m p.index).mpr ⟨p, hp, rfl⟩

/-- C8, witness: the two hypothesis-bearing parts applied to the concrete
parse of `a={0}` and to a concrete one-placeholder message. -/
theorem C8_witness :
    (∃ msgs, parse_messages_from_lines 9 ["a=\x7b0\x7d"] = PResult.ok msgs ∧
        ∀ m ∈ msgs, noAdjTexts m.components = true) ∧
      ∃ q, q ∈ (Message.mk "m" [Component.ph ⟨3, none, none⟩]).placeholders ∧
        q.index = (3 : Int) := by
  constructor
  · exact ⟨_, rfl, C8_components_invariants.1 9 ["a=\x7b0\x7d"] _ rfl⟩
  · exact C8_components_invariants.2 (Message.mk "m" [Component.ph ⟨3, none, none⟩])
      ⟨3, none, none⟩ (List.mem_singleton.mpr rfl)

/-! ### Claim C9: logical-line unicode decoding -/

/-- A hex digit is alphanumeric. -/
theorem alnum_of_hex (c : Char) (h : pyIsHexDigit c = true) : isAlnumAscii c = true := by
  unfold pyIsHexDigit at h
  rw [Bool.or_eq_true, Bool.or_eq_true] at h
  unfold isAlnumAscii
  rcases h with (hd | haf) | hAF
  · simp [hd]
  · rw [Bool.and_eq_true] at haf
    obtain ⟨h1, h2⟩ := haf
    have p1 : 'a' ≤ c := of_decide_eq_true h1
    have p2 : c ≤ 'f' := of_decide_eq_true h2
    have hlow : c.isLower = true := by
      unfold Char.isLower
      have p3 : c ≤ 'z' := le_trans p2 (by decide)
      have q1 : (97 : UInt32) ≤ c.val := p1
      have q2 : c.val ≤ (122 : UInt32) := p3
      simp [q1, q2]
    simp [Char.isAlpha, hlow]
  · rw [Bool.and_eq_true] at hAF
    obtain ⟨h1, h2⟩ := hAF
    have p1 : 'A' ≤ c := of_decide_eq_true h1
    have p2 : c ≤ 'F' := of_decide_eq_true h2
    have hup : c.isUpper = true := by
      unfold Char.isUpper
      have p3 : c ≤ 'Z' := le_trans p2 (by decide)
      have q1 : (65 : UInt32) ≤ c.val := p1
      have q2 : c.val ≤ (90 : UInt32) := p3
      simp [q1, q2]
    simp [Char.isAlpha, hup]

/-- If a `\uXXXX` candidate matches the spec's hex-digit test it also
matches the code's alphanumeric character class. -/
theorem alnumCond_of_hexCond (u a b c d : Char)
    (h : (decide (u = 'u') && pyIsHexDigit a && pyIsHexDigit b && pyIsHexDigit c &&
        pyIsHexDigit d) = true) :
    (decide (u = 'u') && isAlnumAscii a && isAlnumAscii b && isAlnumAscii c &&
        isAlnumAscii d) = true := by
  simp only [Bool.and_eq_true] at h ⊢
  obtain ⟨⟨⟨⟨hu, ha⟩, hb⟩, hc⟩, hd⟩ := h
  exact ⟨⟨⟨⟨hu, alnum_of_hex a ha⟩, alnum_of_hex b hb⟩, alnum_of_hex c hc⟩,
    alnum_of_hex d hd⟩

/-- Agreement of the code's scanner with the spec's substitution at equal
fuel, on inputs whose `\u` candidates are plain hex. -/
theorem unescape_agree_go :
    ∀ (fuel : Nat) (cs : List Char), plainHexOnlyGo fuel cs = true →
      unescapeUnicodeGo fuel cs = some (specUnicodeSubGo fuel cs) := by
  intro fuel cs
  induction fuel, cs using plainHexOnlyGo.induct with
  | case1 x =>
    intro h
    exact Bool.noConfusion h
  | case2 n =>
    intro _
    rfl
  | case3 fuel u a b c d rest2 hcond ih =>
    intro h
    simp only [plainHexOnlyGo, hcond, if_true] at h
    rw [Bool.and_eq_true, Bool.and_eq_true, Bool.and_eq_true, Bool.and_eq_true] at h
    obtain ⟨⟨⟨⟨ha, hb⟩, hc⟩, hd⟩, hrec⟩ := h
    have hu : decide (u = 'u') = true := by
      rw [Bool.and_eq_true, Bool.and_eq_true, Bool.and_eq_true, Bool.and_eq_true] at hcond
      exact hcond.1.1.1.1
    have hspec : (decide (u = 'u') && pyIsHexDigit a && pyIsHexDigit b && pyIsHexDigit c &&
        pyIsHexDigit d) = true := by
      simp [hu, ha, hb, hc, hd]
    have hint : pyIntHex4 a b c d =
        some (((hexVal a * 16 + hexVal b) * 16 + hexVal c) * 16 + hexVal d) := by
      unfold pyIntHex4
      simp [ha, hb, hc, hd]
    simp only [unescapeUnicodeGo, specUnicodeSubGo, hcond, hspec, if_true, hint]
    rw [ih hrec]
    rfl
  | case4 fuel u a b c d rest2 hcond ih =>
    intro h
    have hspecneg : ¬(decide (u = 'u') && pyIsHexDigit a && pyIsHexDigit b &&
        pyIsHexDigit c && pyIsHexDigit d) = true :=
      fun hh => hcond (alnumCond_of_hexCond u a b c d hh)
    simp only [plainHexOnlyGo, hcond, if_false] at h
    simp only [unescapeUnicodeGo, specUnicodeSubGo, hcond, hspecneg, if_false]
    rw [ih h]
    rfl
  | case5 fuel rest hshape ih =>
    intro h
    rcases rest with _ | ⟨x1, _ | ⟨x2, _ | ⟨x3, _ | ⟨x4, _ | ⟨x5, rest6⟩⟩⟩⟩⟩
    · rw [show unescapeUnicodeGo (fuel + 1) ['\\'] =
          (unescapeUnicodeGo fuel []).map (fun r => '\\' :: r) from rfl, ih h]
      rfl
    · rw [show unescapeUnicodeGo (fuel + 1) ('\\' :: [x1]) =
          (unescapeUnicodeGo fuel [x1]).map (fun r => '\\' :: r) from rfl, ih h]
      rfl
    · rw [show unescapeUnicodeGo (fuel + 1) ('\\' :: [x1, x2]) =
          (unescapeUnicodeGo fuel [x1, x2]).map (fun r => '\\' :: r) from rfl, ih h]
      rfl
    · rw [show unescapeUnicodeGo (fuel + 1) ('\\' :: [x1, x2, x3]) =
          (unescapeUnicodeGo fuel [x1, x2, x3]).map (fun r => '\\' :: r) from rfl, ih h]
      rfl
    · rw [show unescapeUnicodeGo (fuel + 1) ('\\' :: [x1, x2, x3, x4]) =
          (unescapeUnicodeGo fuel [x1, x2, x3, x4]).map (fun r => '\\' :: r) from rfl, ih h]
      rfl
    · exact absurd rfl (fun he => hshape x1 x2 x3 x4 x5 rest6 he)
  | case6 fuel head rest hne ih =>
    intro h
    simp only [plainHexOnlyGo] at h
    simp only [unescapeUnicodeGo, specUnicodeSubGo]
    rw [ih h]
    rfl

/-- C9, counterexample: the code's regex accepts any four alphanumerics and
feeds them to `int(_, 16)`, so `\u0x41` (not four hex digits) is decoded to
`A` where the claim requires the line to stay unchanged; and `\uzzzz` raises
`ValueError` instead of being left alone. -/
theorem C9_counterexample :
    logicalLine "\\u0x41" = some "A" ∧
      String.mk (specUnicodeSub (pyRstrip "\\u0x41").data) = "\\u0x41" ∧
      some "A" ≠ some "\\u0x41" ∧
      logicalLine "\\uzzzz" = none := by
  exact ⟨by decide, by decide, by decide, by decide⟩

/-- C9, amended: for every raw line in which each `\u` followed by four
alphanumeric characters has four plain hex digits, the logical line equals
the raw line with trailing whitespace removed and then every `\uXXXX`
occurrence replaced by the single corresponding code point (the
specification-side substitution), the whitespace removal happening before
the decoding and the quote/`\n`/`\t` escapes left untouched for the value
assembler; outside that set of lines the code decodes Python base-16
literals such as `0x41` or raises `ValueError`. -/
theorem C9_amended_logical_line :
    ∀ raw : String, plainHexOnly (pyRstrip raw).data = true →
      logicalLine raw = some (String.mk (specUnicodeSub (pyRstrip raw).data)) := by
  intro raw h
  unfold logicalLine unescapeUnicode specUnicodeSub
  rw [unescape_agree_go _ _ h]
  rfl

/-- C9, witness: the amended claim at the concrete line `error:   `,
whose trailing spaces are stripped before the escape produces the final
space. -/
theorem C9_amended_witness :
    plainHexOnly (pyRstrip "error:\\u0020  ").data = true ∧
      logicalLine "error:\\u0020  " = some "error: " := by
  refine ⟨by decide, ?_⟩
  have h := C9_amended_logical_line "error:\\u0020  " (by decide)
  rw [h]
  decide

/-! ### Claim C2: the three ParseError conditions -/

/-- A list is its own `dropLast` plus some suffix. -/
theorem exists_dropLast_suffix {α : Type} (xs : List α) :
    ∃ t, xs = xs.dropLast ++ t := by
  cases hx : xs with
  | nil => exact ⟨[], rfl⟩
  | cons a as =>
    refine ⟨[(a :: as).getLast (by simp)], ?_⟩
    rw [List.dropLast_append_getLast]

/-- A failed `partition` means the separator does not occur. -/
theorem not_mem_of_splitAtChar_none {c : Char} :
    ∀ {lst : List Char}, splitAtChar c lst = none → c ∉ lst := by
  intro lst
  induction lst with
  | nil =>
    intro _ hmem
    cases hmem
  | cons x xs ih =>
    intro h hmem
    unfold splitAtChar at h
    by_cases hx : x = c
    · rw [if_pos hx] at h
      exact Option.noConfusion h
    · rw [if_neg hx] at h
      cases hs : splitAtChar c xs with
      | some p =>
        rw [hs] at h
        exact Option.noConfusion h
      | none =>
        rcases List.mem_cons.mp hmem with he | hmem2
        · exact hx he.symm
        · exact ih hs hmem2

/-- The chunk handed to escape decoding is a contiguous piece of the logical
line: left-stripping drops a prefix and the backslash removal drops a
suffix. -/
theorem chunk_infix (l : String) :
    ∃ pre0 suf0, l.data = pre0 ++ (dropSuffixBackslash (pyLstrip l)).data ++ suf0 := by
  unfold dropSuffixBackslash pyLstrip
  by_cases he : endsWithBackslash (String.mk (l.data.dropWhile pyIsSpace)) = true
  · simp only [he, if_true]
    obtain ⟨t, ht⟩ := exists_dropLast_suffix (l.data.dropWhile pyIsSpace)
    refine ⟨l.data.takeWhile pyIsSpace, t, ?_⟩
    conv_lhs => rw [← List.takeWhile_append_dropWhile pyIsSpace l.data]
    rw [List.append_assoc, ← ht]
  · simp only [he, if_false]
    refine ⟨l.data.takeWhile pyIsSpace, [], ?_⟩
    rw [List.append_nil]
    exact (List.takeWhile_append_dropWhile pyIsSpace l.data).symm

/-- Shape of the error raised by escape decoding: it is always the
`replace_escape` unknown-escape error, and the offending character follows a
backslash in the decoded chunk and is none of the recognized escapes. -/
theorem replaceEscapes_err (n : Nat) (ctx : String) :
    ∀ (cs : List Char) (e : PyErr), replaceEscapes n ctx cs = Except.error e →
      ∃ (c : Char) (pre suf : List Char), cs = pre ++ '\\' :: c :: suf ∧
        c ≠ '\n' ∧ c ≠ 'n' ∧ c ≠ 't' ∧ c ≠ '\'' ∧ c ≠ '\"' ∧
        e = PyErr.parseError "replace_escape" n ctx
          ("Unknown escape: " ++ String.mk ['\\', c]) := by
  intro cs
  induction cs using replaceEscapes.induct n ctx with
  | case1 =>
    intro e h
    exact Except.noConfusion h
  | case2 =>
    intro e h
    exact Except.noConfusion h
  | case3 rest ih =>
    intro e h
    have h2 : (replaceEscapes n ctx rest).map (fun r => '\\' :: '\n' :: r) =
        Except.error e := h
    cases hrec : replaceEscapes n ctx rest with
    | ok r =>
      rw [hrec] at h2
      exact Except.noConfusion h2
    | error e2 =>
      rw [hrec] at h2
      injection h2 with he
      obtain ⟨c, pre, suf, hcs, h1, hh2, h3, h4, h5, he2⟩ := ih e2 hrec
      exact ⟨c, '\\' :: '\n' :: pre, suf, by rw [hcs]; simp, h1, hh2, h3, h4, h5,
        by rw [← he, he2]⟩
  | case4 rest hn1 ih =>
    intro e h
    have h2 : (replaceEscapes n ctx rest).map (fun r => '\n' :: r) = Except.error e := h
    cases hrec : replaceEscapes n ctx rest with
    | ok r =>
      rw [hrec] at h2
      exact Except.noConfusion h2
    | error e2 =>
      rw [hrec] at h2
      injection h2 with he
      obtain ⟨c, pre, suf, hcs, h1, hh2, h3, h4, h5, he2⟩ := ih e2 hrec
      exact ⟨c, '\\' :: 'n' :: pre, suf, by rw [hcs]; simp, h1, hh2, h3, h4, h5,
        by rw [← he, he2]⟩
  | case5 rest hn1 hn2 ih =>
    intro e h
    have h2 : (replaceEscapes n ctx rest).map (fun r => '\t' :: r) = Except.error e := h
    cases hrec : replaceEscapes n ctx rest with
    | ok r =>
      rw [hrec] at h2
      exact Except.noConfusion h2
    | error e2 =>
      rw [hrec] at h2
      injection h2 with he
      obtain ⟨c, pre, suf, hcs, h1, hh2, h3, h4, h5, he2⟩ := ih e2 hrec
      exact ⟨c, '\\' :: 't' :: pre, suf, by rw [hcs]; simp, h1, hh2, h3, h4, h5,
        by rw [← he, he2]⟩
  | case6 rest hn1 hn2 hn3 ih =>
    intro e h
    have h2 : (replaceEscapes n ctx rest).map (fun r => '\'' :: r) = Except.error e := h
    cases hrec : replaceEscapes n ctx rest with
    | ok r =>
      rw [hrec] at h2
      exact Except.noConfusion h2
    | error e2 =>
      rw [hrec] at h2
      injection h2 with he
      obtain ⟨c, pre, suf, hcs, h1, hh2, h3, h4, h5, he2⟩ := ih e2 hrec
      exact ⟨c, '\\' :: '\'' :: pre, suf, by rw [hcs]; simp, h1, hh2, h3, h4, h5,
        by rw [← he, he2]⟩
  | case7 rest hn1 hn2 hn3 hn4 ih =>
    intro e h
    have h2 : (replaceEscapes n ctx rest).map (fun r => '\"' :: r) = Except.error e := h
    cases hrec : replaceEscapes n ctx rest with
    | ok r =>
      rw [hrec] at h2
      exact Except.noConfusion h2
    | error e2 =>
      rw [hrec] at h2
      injection h2 with he
      obtain ⟨c, pre, suf, hcs, h1, hh2, h3, h4, h5, he2⟩ := ih e2 hrec
      exact ⟨c, '\\' :: '\"' :: pre, suf, by rw [hcs]; simp, h1, hh2, h3, h4, h5,
        by rw [← he, he2]⟩
  | case8 c rest hn1 hn2 hn3 hn4 hn5 =>
    intro e h
    simp only [replaceEscapes, hn1, hn2, hn3, hn4, hn5, if_false] at h
    injection h with he
    exact ⟨c, [], rest, rfl, hn1, hn2, hn3, hn4, hn5, he.symm⟩
  | case9 c rest hne ih =>
    intro e h
    have hne2 : ¬c = '\\' := hne
    simp only [replaceEscapes, hne2] at h
    cases hrec : replaceEscapes n ctx rest with
    | ok r =>
      rw [hrec] at h
      exact Except.noConfusion h
    | error e2 =>
      rw [hrec] at h
      injection h with he
      obtain ⟨c2, pre, suf, hcs, h1, hh2, h3, h4, h5, he2⟩ := ih e2 hrec
      exact ⟨c2, c :: pre, suf, by rw [hcs]; simp, h1, hh2, h3, h4, h5, by rw [← he, he2]⟩

/-- Any ParseError escaping the value loop is the unknown-escape error, and
the offending escape occurs in the logical line it reports. -/
theorem valueLoop_err :
    ∀ (fuel : Nat) (st : PState) (chunks : List String) (p : String) (n : Nat) (l m : String),
      valueLoop fuel st chunks = PResult.err (PyErr.parseError p n l m) →
      p = "replace_escape" ∧ ∃ (c : Char) (pre suf : List Char),
        l.data = pre ++ '\\' :: c :: suf ∧ c ≠ '\n' ∧ c ≠ 'n' ∧ c ≠ 't' ∧ c ≠ '\'' ∧
        c ≠ '\"' ∧ m = "Unknown escape: " ++ String.mk ['\\', c] := by
  intro fuel
  induction fuel with
  | zero =>
    intro st chunks p n l m h
    exact PResult.noConfusion h
  | succ f ih =>
    intro st chunks p n l m h
    unfold valueLoop at h
    split at h
    · injection h with he
      exact PyErr.noConfusion he
    · split at h
      · rename_i lopt l2 hl2 exc e2 hr2
        injection h with he
        rw [he] at hr2
        obtain ⟨c, pre, suf, hcs, h1, h2, h3, h4, h5, he2⟩ :=
          replaceEscapes_err st.lineNo l2 _ _ hr2
        injection he2 with hp hn hline hm
        subst hp
        subst hn
        subst hline
        subst hm
        refine ⟨rfl, c, ?_⟩
        obtain ⟨pre0, suf0, hmid⟩ := chunk_infix l
        rw [hcs] at hmid
        exact ⟨pre0 ++ pre, suf ++ suf0, by rw [hmid]; simp [List.append_assoc],
          h1, h2, h3, h4, h5, rfl⟩
      · rename_i l2 hl2 cs2 hr2
        split at h
        · exact ih _ _ _ _ _ _ h
        · exact PResult.noConfusion h

/-- Any ParseError escaping the message production is the missing-`=` error
on a line with no `=`, or the unknown-escape error from the value loop. -/
theorem messageProd_err (fuel : Nat) (st : PState) (p : String) (n : Nat) (l m : String)
    (h : messageProd fuel st = PResult.err (PyErr.parseError p n l m)) :
    (p = "message" ∧ m = "expected `property=` here" ∧ '=' ∉ l.data)
      ∨ (p = "replace_escape" ∧ ∃ (c : Char) (pre suf : List Char),
          l.data = pre ++ '\\' :: c :: suf ∧ c ≠ '\n' ∧ c ≠ 'n' ∧ c ≠ 't' ∧ c ≠ '\'' ∧
          c ≠ '\"' ∧ m = "Unknown escape: " ++ String.mk ['\\', c]) := by
  unfold messageProd at h
  split at h
  · injection h with he
    exact PyErr.noConfusion he
  · rename_i lopt l2 hl2
    split at h
    · rename_i hsp
      injection h with he
      injection he with he1 he2 he3 he4
      refine Or.inl ⟨he1.symm, he4.symm, ?_⟩
      rw [← he3]
      exact not_mem_of_splitAtChar_none hsp
    · rename_i pr namePart rest0 hsp
      split at h
      · cases hv : valueLoop fuel (nextLine st) [] with
        | ok q =>
          rw [hv] at h
          exact PResult.noConfusion h
        | diverge =>
          rw [hv] at h
          exact PResult.noConfusion h
        | err e2 =>
          rw [hv] at h
          simp only [finishValue] at h
          injection h with he
          rw [he] at hv
          exact Or.inr (valueLoop_err fuel (nextLine st) [] p n l m hv)
      · exact PResult.noConfusion h

/-- Any ParseError escaping an item step is one of the three conditions:
invalid item line, missing `=`, or unknown escape. -/
theorem itemStep_err (fuel : Nat) (st : PState) (p : String) (n : Nat) (l m : String)
    (h : itemStep fuel st = PResult.err (PyErr.parseError p n l m)) :
    (p = "item" ∧ m = "Parse error" ∧ l ≠ "" ∧
        ∃ c cs, l.data = c :: cs ∧ c ≠ '#' ∧ c.isAlpha = false)
      ∨ (p = "message" ∧ m = "expected `property=` here" ∧ '=' ∉ l.data)
      ∨ (p = "replace_escape" ∧ ∃ (c : Char) (pre suf : List Char),
          l.data = pre ++ '\\' :: c :: suf ∧ c ≠ '\n' ∧ c ≠ 'n' ∧ c ≠ 't' ∧ c ≠ '\'' ∧
          c ≠ '\"' ∧ m = "Unknown escape: " ++ String.mk ['\\', c]) := by
  unfold itemStep at h
  split at h
  · injection h with he
    exact PyErr.noConfusion he
  · rename_i lopt l2 hl2
    split at h
    · exact PResult.noConfusion h
    · rename_i c cls hdata
      split at h
      · exact PResult.noConfusion h
      · split at h
        · rcases messageProd_err fuel st p n l m h with h1 | h2
          · exact Or.inr (Or.inl h1)
          · exact Or.inr (Or.inr h2)
        · rename_i hch hca
          injection h with he
          injection he with he1 he2 he3 he4
          refine Or.inl ⟨he1.symm, he4.symm, ?_, ?_⟩
          · rw [← he3]
            intro hcontra
            rw [hcontra] at hdata
            exact List.noConfusion hdata
          · refine ⟨c, cls, by rw [← he3]; exact hdata, ?_, ?_⟩
            · intro hcontra
              exact hch (by rw [hcontra])
            · cases hb : c.isAlpha with
              | false => rfl
              | true => exact absurd (by rw [hb] : c.isAlpha = true) hca

/-- Any ParseError escaping the parse loop satisfies one of the three
conditions. -/
theorem parseLoop_err :
    ∀ (fuel : Nat) (st : PState) (p : String) (n : Nat) (l m : String),
      parseLoop fuel st = PResult.err (PyErr.parseError p n l m) →
      (p = "item" ∧ m = "Parse error" ∧ l ≠ "" ∧
          ∃ c cs, l.data = c :: cs ∧ c ≠ '#' ∧ c.isAlpha = false)
        ∨ (p = "message" ∧ m = "expected `property=` here" ∧ '=' ∉ l.data)
        ∨ (p = "replace_escape" ∧ ∃ (c : Char) (pre suf : List Char),
            l.data = pre ++ '\\' :: c :: suf ∧ c ≠ '\n' ∧ c ≠ 'n' ∧ c ≠ 't' ∧ c ≠ '\'' ∧
            c ≠ '\"' ∧ m = "Unknown escape: " ++ String.mk ['\\', c]) := by
  intro fuel
  induction fuel with
  | zero =>
    intro st p n l m h
    exact PResult.noConfusion h
  | succ f ih =>
    intro st p n l m h
    unfold parseLoop at h
    split at h
    · split at h
      · rename_i e2 hi
        injection h with he
        rw [he] at hi
        exact itemStep_err f st p n l m hi
      · exact PResult.noConfusion h
      · rename_i stn hi
        exact ih stn p n l m h
    · exact PResult.noConfusion h

/-- C2: every ParseError the parser raises is one of exactly three
conditions — an item-position line that is neither comment, blank, nor
alphabetic-initial; a message line lacking `=`; or an unrecognized backslash
escape inside a value — with the reported logical line exhibiting the
condition; and each condition does occur, witnessed by one concrete input
per condition. In the embedding an error result carries no message list, so
all three are fatal to the entire parse. -/
theorem C2_parse_error_three_conditions :
    (∀ (fuel : Nat) (lines : List String) (p : String) (n : Nat) (l m : String),
        parse_messages_from_lines fuel lines = PResult.err (PyErr.parseError p n l m) →
        (p = "item" ∧ m = "Parse error" ∧ l ≠ "" ∧
            ∃ c cs, l.data = c :: cs ∧ c ≠ '#' ∧ c.isAlpha = false)
          ∨ (p = "message" ∧ m = "expected `property=` here" ∧ '=' ∉ l.data)
          ∨ (p = "replace_escape" ∧ ∃ (c : Char) (pre suf : List Char),
              l.data = pre ++ '\\' :: c :: suf ∧ c ≠ '\n' ∧ c ≠ 'n' ∧ c ≠ 't' ∧
              c ≠ '\'' ∧ c ≠ '\"' ∧
              m = "Unknown escape: " ++ String.mk ['\\', c])) ∧
      parse_messages_from_lines 9 [" ?"] =
        PResult.err (PyErr.parseError "item" 1 " ?" "Parse error") ∧
      parse_messages_from_lines 9 ["ab"] =
        PResult.err (PyErr.parseError "message" 1 "ab" "expected `property=` here") ∧
      parse_messages_from_lines 9 ["a=\\", "\\q"] =
        PResult.err (PyErr.parseError "replace_escape" 2 "\\q" "Unknown escape: \\q") := by
  refine ⟨?_, by decide, by decide, by decide⟩
  intro fuel lines p n l m h
  cases lines with
  | nil =>
    injection h with he
    exact PyErr.noConfusion he
  | cons l0 ls =>
    exact parseLoop_err fuel ⟨1, l0, ls, true, [], []⟩ p n l m h

/-- C2, witness: the universally quantified part applied to the concrete
invalid-item input ` ?`. -/
theorem C2_three_conditions_witness :
    (" ?" : String) ≠ "" ∧
      ∃ c cs, (" ?" : String).data = c :: cs ∧ c ≠ '#' ∧ c.isAlpha = false := by
  have h := C2_parse_error_three_conditions.1 9 [" ?"] "item" 1 " ?" "Parse error" rfl
  rcases h with ⟨-, -, hne, hex⟩ | ⟨hp, -⟩ | ⟨hp, -⟩
  · exact ⟨hne, hex⟩
  · exact absurd hp (by decide)
  · exact absurd hp (by decide)

end JavacProps
